import Mathlib

/-!
Verification of the Mantra voice-editing extension's two core engines against
their natural-language specification.

The development shallowly embeds the relevant TypeScript source:

* `src/extension.ts` — `computeChangeHints` (the line diff engine) and the
  decoration lifecycle of `replaceDocumentWithHighlight`;
* `src/model.ts` — the utterance reconciler inside `Model.transcribeStream`
  (`appendWithOverlap`, `resetIdle`, `safeResolve` / `safeReject`, and the
  `Transcript` / `Close` / `Error` handlers plus the idle-timer callback).

JavaScript strings are modelled as `List Char` (`JStr`); the handful of
JavaScript string operations used by the source (`split(/\r?\n/)`, `trim()`,
`indexOf`, `slice`, `endsWith`) are given as executable definitions below,
each annotated with the behaviour it mirrors.
-/

namespace Mantra

/-- JavaScript strings, modelled as lists of characters. -/
abbrev JStr := List Char

/-- The JavaScript `\s` character class (as used by `trim()` and `/\s+/g`):
space, tab, LF, VT, FF, CR, NBSP, Ogham space, the U+2000–U+200A range,
line/paragraph separators, NNBSP, MMSP, ideographic space and the BOM. -/
def jsWS (c : Char) : Bool :=
  let n := c.toNat
  n == 0x20 || n == 0x09 || n == 0x0a || n == 0x0b || n == 0x0c || n == 0x0d ||
  n == 0xa0 || n == 0x1680 || (decide (0x2000 ≤ n) && decide (n ≤ 0x200a)) ||
  n == 0x2028 || n == 0x2029 || n == 0x202f || n == 0x205f || n == 0x3000 ||
  n == 0xfeff

/-- JavaScript `String.prototype.trim()`: strip `\s` characters from both ends. -/
def jsTrim (s : JStr) : JStr :=
  ((s.dropWhile jsWS).reverse.dropWhile jsWS).reverse

/-- `text.split(/\r?\n/)`, the line splitter used by `computeChangeHints`
(src/extension.ts lines 263-264).  A `"\r\n"` pair or a lone `"\n"` separates
lines; a lone `"\r"` does not.  Splitting always yields at least one (possibly
empty) line, exactly as in JavaScript where `"".split(/\r?\n/)` is `[""]`. -/
def splitLinesAux : JStr → JStr → List JStr
  | [], acc => [acc.reverse]
  | '\r' :: '\n' :: rest, acc => acc.reverse :: splitLinesAux rest []
  | '\n' :: rest, acc => acc.reverse :: splitLinesAux rest []
  | c :: rest, acc => splitLinesAux rest (c :: acc)

def splitLines (s : JStr) : List JStr := splitLinesAux s []

/-- JavaScript `hay.indexOf(needle)` (restricted to the `some`/`none` of a hit):
index of the first occurrence of `needle` in `hay`. -/
def jsIndexOf (needle : JStr) : JStr → Option Nat
  | [] => if needle = [] then some 0 else none
  | c :: t =>
    if needle.isPrefixOf (c :: t) then some 0
    else (jsIndexOf needle t).map (· + 1)

/-! ### The diff engine: `computeChangeHints` (src/extension.ts lines 258-343)

The source builds a `Uint16Array` LCS table `dp` with
`dp(i,j) = A[i]===B[j] ? dp(i+1,j+1)+1 : max(dp(i+1,j), dp(i,j+1))`
filled bottom-up, row `n` being all zeros.  Because the recurrence only looks
down-right, the table over a pair of suffixes coincides with the corresponding
region of the full table, so we compute `dp` values directly on suffixes.
`Uint16Array` stores values modulo 2^16, hence the `% 65536` on the `+1`
branch (the `max` branch cannot leave the range). -/

/-- One row of the `dp` table for old line `a`: entry `j` of the result is
`dp(i,j)` given `next` = row `i+1` (aligned to the same columns). -/
def dpRow (a : JStr) : List JStr → List Nat → List Nat
  | [], _ => [0]
  | b :: bs, next =>
    let rest := dpRow a bs next.tail
    let v := if a = b then (next.tail.headD 0 + 1) % 65536
             else max (next.headD 0) (rest.headD 0)
    v :: rest

/-- All rows `i, i+1, …, n` of the `dp` table for the suffix `As` of the old
lines against the lines `B`. -/
def dpTable : List JStr → List JStr → List (List Nat)
  | [], B => [List.replicate (B.length + 1) 0]
  | a :: As, B =>
    let rest := dpTable As B
    dpRow a B (rest.headD []) :: rest

/-- `dp(i,j)` for the current suffix pair: the top-left entry of the table. -/
def dpLCS (As Bs : List JStr) : Nat := ((dpTable As Bs).headD []).headD 0

/-- The greedy LCS walk (src/extension.ts lines 289-304), embedded with explicit
fuel: each iteration of the source's `while (i < n && j < m)` loop advances
`i` or `j`, so the loop runs at most `n + m` times and `computeChangeHints`
below supplies exactly that much fuel.  State: the remaining suffixes of the
old and new lines, the absolute new-text cursor `j`, `aS` = the source's
`addStart` (`none` for `-1`), `dC` = `delCount`, and the accumulated `added`
and `removed` lists.  Returns `(added, removed, addStart, delCount)` at loop
exit. -/
def walkLoop (fuel : Nat) (As Bs : List JStr) (j : Nat) (aS : Option Nat)
    (dC : Nat) (ad rm : List (Nat × Nat)) :
    List (Nat × Nat) × List (Nat × Nat) × Option Nat × Nat :=
  match fuel, As, Bs with
  | 0, _, _ => (ad, rm, aS, dC)
  | _ + 1, [], _ => (ad, rm, aS, dC)
  | _ + 1, _ :: _, [] => (ad, rm, aS, dC)
  | fuel + 1, a :: As', b :: Bs' =>
    if a = b then
      walkLoop fuel As' Bs' (j + 1) none 0
        (match aS with | some s => ad ++ [(s, j - 1)] | none => ad)
        (if dC = 0 then rm else rm ++ [(j, dC)])
    else if dpLCS As' (b :: Bs') ≥ dpLCS (a :: As') Bs' then
      walkLoop fuel As' (b :: Bs') j aS (dC + 1) ad rm
    else
      walkLoop fuel (a :: As') Bs' (j + 1) (some (aS.getD j)) dC ad rm

/-- The precomputed line-start offsets of the old text
(src/extension.ts lines 314-315): `0` followed by `k + 1` for every index `k`
holding a `'\n'` (char code 10). -/
def newlineOffsetsAux : JStr → Nat → List Nat
  | [], _ => []
  | c :: t, k =>
    if c = '\n' then (k + 1) :: newlineOffsetsAux t (k + 1)
    else newlineOffsetsAux t (k + 1)

def oldOffsetsOf (s : JStr) : List Nat := 0 :: newlineOffsetsAux s 0

/-- The source's binary search (src/extension.ts lines 316-324) returns the
largest index `ans` with `offs[ans] ≤ off`.  `offs` is strictly increasing and
starts with `0`, so that index is the number of entries `≤ off`, minus one. -/
def offsetToLine (offs : List Nat) (off : Nat) : Nat :=
  offs.countP (fun o => decide (o ≤ off)) - 1

/-- Heuristic moved-block detection (src/extension.ts lines 311-340): for each
added span, join its lines with `'\n'`; skip it if whitespace-only (the
source's `block.replace(/\s+/g, '') === ''`); otherwise look the exact block
up in the old text, convert the hit offset to a line number, and record the
span as moved when the origin differs from the destination by more than one
line. -/
def movedHints (oldText : JStr) (B : List JStr) (added : List (Nat × Nat)) :
    List (Nat × Nat × Nat × Nat) :=
  let offs := oldOffsetsOf oldText
  added.filterMap (fun p =>
    let s := p.1
    let e := p.2
    let block := List.intercalate ['\n'] ((B.drop s).take (e + 1 - s))
    if block.all jsWS then none
    else
      match jsIndexOf block oldText with
      | some off =>
        let fromStart := offsetToLine offs off
        let fromEnd := fromStart + (e - s)
        if max fromStart s - min fromStart s > 1 then
          some (s, e, fromStart, fromEnd)
        else none
      | none => none)

/-- The result of `computeChangeHints`: `added` spans `(startLine, endLine)` in
new-text coordinates, `removed` entries `(anchor, count)`, `moved` entries
`(start, end, fromStart, fromEnd)`. -/
structure ChangeHints where
  added : List (Nat × Nat)
  removed : List (Nat × Nat)
  moved : List (Nat × Nat × Nat × Nat)
deriving DecidableEq

/-- `computeChangeHints(oldText, newText)` (src/extension.ts lines 258-343). -/
def computeChangeHints (oldText newText : JStr) : ChangeHints :=
  let A := splitLines oldText
  let B := splitLines newText
  let n := A.length
  let m := B.length
  let ar : List (Nat × Nat) × List (Nat × Nat) :=
    if n = 0 ∧ 0 < m then ([(0, m - 1)], [])
    else if m = 0 ∧ 0 < n then ([], [])
    else if 0 < m then
      let r := walkLoop (n + m) A B 0 none 0 [] []
      let ad := match r.2.2.1 with
        | some s => r.1 ++ [(s, m - 1)]
        | none => r.1
      let rm := if r.2.2.2 ≠ 0 then r.2.1 ++ [(max 0 (m - 1), r.2.2.2)]
        else r.2.1
      (ad, rm)
    else ([], [])
  let added := ar.1
  let removed := ar.2
  let moved :=
    if added ≠ [] ∧ 0 < n ∧ 0 < m then movedHints oldText B added else []
  ⟨added, removed, moved⟩

/-! ### The utterance reconciler: `Model.transcribeStream` (src/model.ts lines 384-534)

State local to one listening session (the closure inside the returned
promise): `settled` and `finalTranscript` (lines 401-402), `committed`,
`lastTxt` and `utterance` (the preview, lines 471-473), and the single idle
timer (line 475), modelled as the absolute time at which the pending timer is
due (`none` when no timer is pending).  The session is driven by the provider
events `Transcript`, `Close` and `Error` plus the idle-timer callback; each
handler returns the new state together with the externally visible outputs
(calls to `onInterim`, and the promise's resolution or rejection). -/

/-- The overlap search loop inside `appendWithOverlap`
(src/model.ts lines 490-494): try `i = bound, bound-1, …, 1` and return the
first (largest) `i` with `base.endsWith(next.slice(0, i))`, else `0`. -/
def overlapSearch (base next : JStr) : Nat → Nat
  | 0 => 0
  | i + 1 =>
    if (next.take (i + 1)).isSuffixOf base then i + 1
    else overlapSearch base next i

/-- The overlap length chosen by `appendWithOverlap`: the search starts at
`Math.min(base.length, next.length)`. -/
def overlapK (base next : JStr) : Nat :=
  overlapSearch base next (min base.length next.length)

/-- `appendWithOverlap(base, next)` (src/model.ts lines 487-496). -/
def appendWithOverlap (base next : JStr) : JStr :=
  if base = [] then next
  else base ++ next.drop (overlapK base next)

/-- Session state of one `transcribeStream` call. -/
structure MState where
  settled : Bool
  committed : JStr
  lastTxt : JStr
  utterance : JStr
  finalTranscript : JStr
  idleDeadline : Option Nat
deriving DecidableEq

/-- Fresh session state: `finalTranscript = ''`, `settled = false`
(src/model.ts lines 401-402), `utterance = lastTxt = committed = ''`
(lines 471-473), no idle timer yet. -/
def initState : MState := ⟨false, [], [], [], [], none⟩

/-- Externally visible outputs of a handler invocation. -/
inductive Out where
  | interim (txt : JStr)
  | resolve (txt : JStr)
  | reject
deriving DecidableEq

/-- `safeResolve` (src/model.ts lines 404-409): resolve the promise unless the
session has already settled.  (The `connection.close()` it also performs is a
channel side effect, surfacing later as a `Close` event.) -/
def safeResolve (s : MState) (txt : JStr) : MState × List Out :=
  if s.settled then (s, [])
  else ({ s with settled := true }, [Out.resolve txt])

/-- `safeReject` (src/model.ts lines 410-415). -/
def safeReject (s : MState) : MState × List Out :=
  if s.settled then (s, [])
  else ({ s with settled := true }, [Out.reject])

/-- The clamp applied to the configured trailing-silence duration
(src/model.ts lines 418-421): `Math.max(100, configured)`. -/
def clampTrailing (v : Nat) : Nat := max 100 v

/-- The idle-timer delay chosen by `resetIdle` (src/model.ts line 484):
`Math.max(1200, trailingMsCfg + 200)`. -/
def idleDelay (trailingMsCfg : Nat) : Nat := max 1200 (trailingMsCfg + 200)

/-- The `Transcript` event handler (src/model.ts lines 498-526) for an event
arriving at time `t`.  `raw` is the alternative's transcript; the handler
trims it and returns immediately when the result is empty.  Otherwise it
commits (`is_final`) or replaces the preview (interim), re-arms the idle timer
to fire at `t + idleDelay T` (`resetIdle`, lines 476-485, clears any pending
timer first — hence the single stored deadline is overwritten), and finally
either resolves (`speech_final`) or reports the preview through `onInterim`.
Note the handler performs no `settled` check of its own. -/
def handleTranscript (T t : Nat) (raw : JStr) (isFinal isSpeechFinal : Bool)
    (s : MState) : MState × List Out :=
  let txt := jsTrim raw
  if txt = [] then (s, [])
  else
    let s1 :=
      if isFinal then
        let c := if s.committed = [] then txt
                 else appendWithOverlap s.committed txt
        { s with committed := c, lastTxt := [], utterance := c }
      else
        { s with
            utterance := if s.committed = [] then txt
                         else s.committed ++ ' ' :: txt,
            lastTxt := txt }
    let s2 := { s1 with idleDeadline := some (t + idleDelay T) }
    if isSpeechFinal then
      let s3 := { s2 with finalTranscript := jsTrim s2.utterance }
      safeResolve s3 (jsTrim s2.utterance)
    else
      (s2, [Out.interim s2.utterance])

/-- The idle-timer callback (src/model.ts lines 479-484): once fired, the
timer is spent; if the session is unsettled and the trimmed preview is
non-empty, store it in `finalTranscript` and resolve with it. -/
def handleTimer (s : MState) : MState × List Out :=
  let s0 := { s with idleDeadline := none }
  if s0.settled = false ∧ jsTrim s0.utterance ≠ [] then
    let s1 := { s0 with finalTranscript := jsTrim s0.utterance }
    safeResolve s1 (jsTrim s0.utterance)
  else (s0, [])

/-- The `Close` event handler (src/model.ts lines 529-531):
`if (!settled) safeResolve(finalTranscript || '')` — for strings
`finalTranscript || ''` is just `finalTranscript`. -/
def handleClose (s : MState) : MState × List Out :=
  if s.settled = false then safeResolve s s.finalTranscript else (s, [])

/-- The `Error` event handler (src/model.ts line 454), also used for input
stream errors (line 469): `safeReject`. -/
def handleError (s : MState) : MState × List Out := safeReject s

/-- Events driving one session, each carrying its arrival time. -/
inductive Ev where
  | transcript (t : Nat) (txt : JStr) (isFinal isSpeechFinal : Bool)
  | close (t : Nat)
  | error (t : Nat)
  | timerFire (t : Nat)
deriving DecidableEq

def evTime : Ev → Nat
  | .transcript t _ _ _ => t
  | .close t => t
  | .error t => t
  | .timerFire t => t

/-- Dispatch one event to its handler. -/
def step (T : Nat) (s : MState) : Ev → MState × List Out
  | .transcript t txt f sf => handleTranscript T t txt f sf s
  | .close _ => handleClose s
  | .error _ => handleError s
  | .timerFire _ => handleTimer s

/-- Run a whole event trace from the fresh session state, collecting outputs
in order. -/
def runTrace (T : Nat) (es : List Ev) : MState × List Out :=
  es.foldl
    (fun acc e =>
      let r := step T acc.1 e
      (r.1, acc.2 ++ r.2))
    (initState, [])

/-- Trace validity under the single-threaded timer model: event times are
non-decreasing, and a `timerFire` can only occur when a timer is pending and
no earlier than its deadline (`setTimeout` never fires early, and a cleared
or already-fired timer never fires). -/
def validFrom (T : Nat) (s : MState) (now : Nat) : List Ev → Bool
  | [] => true
  | e :: es =>
    decide (now ≤ evTime e) &&
    (match e with
     | .timerFire t =>
       match s.idleDeadline with
       | some d => decide (d ≤ t)
       | none => false
     | _ => true) &&
    validFrom T (step T s e).1 (evTime e) es

def validTrace (T : Nat) (es : List Ev) : Bool := validFrom T initState 0 es

/-- The number of terminal outputs (resolutions or rejections) in an output
list. -/
def resCount (outs : List Out) : Nat :=
  outs.countP (fun o => match o with | .interim _ => false | _ => true)

/-! ### Apply-and-visualize resource lifecycle
(`replaceDocumentWithHighlight`, src/extension.ts lines 349-468)

Each call creates three fresh decoration types (added / removed / moved,
lines 367-385), applies them (lines 450-452) and schedules a single
`setTimeout` for `DISPOSE_MS` later that clears and disposes exactly those
three types (lines 454-467).  Calls share no state: a later call neither
cancels the earlier call's timer nor touches its decoration types.  We model
the process-wide resource state: the live decoration types as pairs
`(callId, kind)` with kinds `0`/`1`/`2` for added/removed/moved, the pending
dispose timers as pairs `(callId, fireTime)`, and a counter issuing call
ids. -/

def DISPOSE_MS : Nat := 3500

structure HLState where
  live : List (Nat × Nat)
  timers : List (Nat × Nat)
  nextId : Nat
deriving DecidableEq

def hlInit : HLState := ⟨[], [], 0⟩

/-- One `replaceDocumentWithHighlight` call at time `t`: acquire the call's
three decoration types and schedule its dispose timer at `t + DISPOSE_MS`. -/
def applyHighlight (t : Nat) (s : HLState) : HLState :=
  { live := s.live ++ [(s.nextId, 0), (s.nextId, 1), (s.nextId, 2)],
    timers := s.timers ++ [(s.nextId, t + DISPOSE_MS)],
    nextId := s.nextId + 1 }

/-- The dispose-timer callback of call `id` (src/extension.ts lines 456-467):
clear and dispose that call's three decoration types; the timer is spent. -/
def fireDispose (id : Nat) (s : HLState) : HLState :=
  { live := s.live.filter (fun r => !(r.1 == id)),
    timers := s.timers.filter (fun q => !(q.1 == id)),
    nextId := s.nextId }

/-- Modelled from the spec: the host document's `lineCount` after the atomic
full replacement with `text` (spec §6: the editor reports the document's line
count; it equals the number of lines the document text splits into, and every
document has at least one line). -/
def docLineCount (text : JStr) : Nat := (splitLines text).length

/-! ### Basic lemmas -/

theorem splitLinesAux_ne_nil : ∀ (l acc : JStr), splitLinesAux l acc ≠ [] := by
  intro l acc
  induction l, acc using splitLinesAux.induct <;> simp [splitLinesAux, *]

theorem splitLines_ne_nil (s : JStr) : splitLines s ≠ [] :=
  splitLinesAux_ne_nil s []

theorem splitLines_length_pos (s : JStr) : 0 < (splitLines s).length :=
  List.length_pos.mpr (splitLines_ne_nil s)

/-- On two identical line lists with no open added run and no pending
deletion count, the walk only ever takes the match branch, so it leaves the
accumulators untouched. -/
theorem walkLoop_diag :
    ∀ (fuel : Nat) (L : List JStr) (j : Nat) (ad rm : List (Nat × Nat)),
      walkLoop fuel L L j none 0 ad rm = (ad, rm, none, 0) := by
  intro fuel
  induction fuel with
  | zero => intro L j ad rm; simp [walkLoop]
  | succ n ih =>
    intro L j ad rm
    cases L with
    | nil => simp [walkLoop]
    | cons a As => simp [walkLoop, ih]

/-! ### Claims -/

/-- C9: for every text `X`, `computeChangeHints X X` yields empty `added`,
empty `removed` and empty `moved`: splitting gives two identical line lists,
so the LCS walk takes the match branch at every step and accumulates
nothing. -/
theorem C9_identity_diff : ∀ X : JStr, computeChangeHints X X = ⟨[], [], []⟩ := by
  intro X
  have hm : 0 < (splitLines X).length := splitLines_length_pos X
  have hne : (splitLines X).length ≠ 0 := Nat.pos_iff_ne_zero.mp hm
  simp [computeChangeHints, walkLoop_diag, hne]

/-- C10: splitting on `/\r?\n/` always yields at least one line, so both line
arrays of the diff engine are non-empty, the degenerate branches guarded by
`n === 0` and `m === 0` in `computeChangeHints` are unreachable for any actual
string inputs, and the post-replacement empty-document guard
(`lineCount === 0`) in `replaceDocumentWithHighlight` is likewise
unreachable. -/
theorem C10_split_nonempty :
    ∀ oldText newText : JStr,
      splitLines oldText ≠ [] ∧ splitLines newText ≠ [] ∧
      ¬((splitLines oldText).length = 0 ∧ 0 < (splitLines newText).length) ∧
      ¬((splitLines newText).length = 0 ∧ 0 < (splitLines oldText).length) ∧
      docLineCount newText ≠ 0 := by
  intro o n
  refine ⟨splitLines_ne_nil o, splitLines_ne_nil n, ?_, ?_, ?_⟩
  · rintro ⟨h, -⟩
    exact absurd h (Nat.pos_iff_ne_zero.mp (splitLines_length_pos o))
  · rintro ⟨h, -⟩
    exact absurd h (Nat.pos_iff_ne_zero.mp (splitLines_length_pos n))
  · exact Nat.pos_iff_ne_zero.mp (splitLines_length_pos n)

/-- C2 counterexample: the claim says `computeDiff("", "a\nb\nc")` yields
`added = [(0,2)]` and `removed = []`.  In fact `"".split(/\r?\n/)` is `[""]`,
so the old side is one empty line, the `n === 0` branch is never taken, the
walk deletes that empty line (the dp tie prefers deletion) and exits with
`i = n` before scanning any new line, leaving `added` empty and one removed
entry anchored at the last new line. -/
theorem C2_counterexample :
    (computeChangeHints "".data ("a\nb\nc").data).added ≠ [(0, 2)] ∧
    (computeChangeHints "".data ("a\nb\nc").data).removed ≠ [] := by decide

/-- C2 amended: `computeChangeHints("", "a\nb\nc")` yields `added = []` and
`removed = [(2, 1)]` — splitting the empty string yields one empty line
rather than zero lines, so the empty-old-text degenerate branch is
unreachable; the single empty old line is reported as one deletion anchored
at the last new line, and no added span is produced. -/
theorem C2_empty_old_diff :
    computeChangeHints "".data ("a\nb\nc").data = ⟨[], [(2, 1)], []⟩ := by
  decide

/-- C7 counterexample: the claim says the relocated two-line `foo`/`bar`
block (new lines 1–2) is flagged as moved.  In fact no moved entry covers
new line 1 or 2: the walk keeps `foo`/`bar` as matched context and the only
moved entry is the single line `"y"` at new line 3. -/
theorem C7_counterexample :
    ((computeChangeHints ("x\ny\nfoo\nbar\nz").data
        ("x\nfoo\nbar\ny\nz").data).moved.all
      (fun q => !(decide (q.1 ≤ 2) && decide (1 ≤ q.2.1)))) = true := by decide

/-- C7 amended: on `("x\ny\nfoo\nbar\nz", "x\nfoo\nbar\ny\nz")` the diff
keeps the `foo`/`bar` pair as matched context; the relocated *single* line
`"y"` (new line 3) is the added span, it is flagged as moved with origin old
line 1, and the deletion of `"y"` from old line 1 is anchored at new line 1:
the result is `added = [(3,3)]`, `removed = [(1,1)]`,
`moved = [(3,3,1,1)]`. -/
theorem C7_moved_actual :
    computeChangeHints ("x\ny\nfoo\nbar\nz").data ("x\nfoo\nbar\ny\nz").data =
      ⟨[(3, 3)], [(1, 1)], [(3, 3, 1, 1)]⟩ := by decide

/-! ### Overlap-stitching lemmas (C4) -/

theorem overlapSearch_le (base next : JStr) :
    ∀ bound : Nat, overlapSearch base next bound ≤ bound := by
  intro bound
  induction bound with
  | zero => simp [overlapSearch]
  | succ i ih =>
    by_cases h : (next.take (i + 1)).isSuffixOf base
    · simp [overlapSearch, h]
    · simp only [overlapSearch, if_neg h]
      exact Nat.le_trans ih (Nat.le_succ i)

theorem overlapSearch_suffix (base next : JStr) :
    ∀ bound : Nat, next.take (overlapSearch base next bound) <:+ base := by
  intro bound
  induction bound with
  | zero => simp [overlapSearch]
  | succ i ih =>
    by_cases h : (next.take (i + 1)).isSuffixOf base
    · simpa [overlapSearch, h] using List.isSuffixOf_iff_suffix.mp h
    · simpa [overlapSearch, h] using ih

theorem overlapSearch_max (base next : JStr) :
    ∀ bound i : Nat, i ≤ bound → next.take i <:+ base →
      i ≤ overlapSearch base next bound := by
  intro bound
  induction bound with
  | zero => intro i hi _; simpa [overlapSearch] using hi
  | succ b ih =>
    intro i hi hsuf
    by_cases h : (next.take (b + 1)).isSuffixOf base
    · simpa [overlapSearch, h] using hi
    · simp only [overlapSearch, if_neg h]
      rcases Nat.lt_or_ge i (b + 1) with hlt | hge
      · exact ih i (Nat.lt_succ_iff.mp hlt) hsuf
      · exact absurd (List.isSuffixOf_iff_suffix.mpr
          (Nat.le_antisymm hi hge ▸ hsuf)) (by simpa using h)

/-- C4: a final transcription event stitches its (trimmed) text onto
`committed` by longest-suffix/prefix overlap removal — `appendWithOverlap`
appends exactly the remainder past the overlap, the dropped overlap is the
longest prefix of the new text that is also a suffix of the committed text
(among lengths up to `min` of the lengths, the range the source searches),
the `Transcript` handler's `is_final` path updates `committed` this way, and
stitching `"hello wor"` with `"world"` yields `"hello world"`. -/
theorem C4_overlap_stitching :
    (∀ base next : JStr,
        appendWithOverlap base next = base ++ next.drop (overlapK base next) ∧
        next.take (overlapK base next) <:+ base ∧
        overlapK base next ≤ min base.length next.length ∧
        (∀ i : Nat, i ≤ min base.length next.length → next.take i <:+ base →
          i ≤ overlapK base next)) ∧
    appendWithOverlap "hello wor".data "world".data = "hello world".data ∧
    (∀ (T t : Nat) (raw : JStr) (sf : Bool) (s : MState), jsTrim raw ≠ [] →
        (handleTranscript T t raw true sf s).1.committed =
          appendWithOverlap s.committed (jsTrim raw)) := by
  refine ⟨?_, by decide, ?_⟩
  · intro base next
    refine ⟨?_, overlapSearch_suffix base next _, overlapSearch_le base next _,
      fun i hi hs => overlapSearch_max base next _ i hi hs⟩
    by_cases hb : base = []
    · subst hb; simp [appendWithOverlap, overlapK, overlapSearch]
    · simp [appendWithOverlap, hb]
  · intro T t raw sf s hraw
    have hc : (if s.committed = [] then jsTrim raw
        else appendWithOverlap s.committed (jsTrim raw)) =
        appendWithOverlap s.committed (jsTrim raw) := by
      by_cases h : s.committed = [] <;> simp [h, appendWithOverlap]
    cases sf
    · simp [handleTranscript, hraw, hc]
    · by_cases hs : s.settled = true <;>
        simp [handleTranscript, hraw, safeResolve, hc, hs]

/-- Witness for C4: the maximality clause at the concrete overlap
(`"wor"`, length 3) and the handler clause at a concrete final event. -/
theorem C4_witness :
    (3 ≤ min "hello wor".data.length "world".data.length ∧
      "world".data.take 3 <:+ "hello wor".data ∧
      3 ≤ overlapK "hello wor".data "world".data) ∧
    (jsTrim "world".data ≠ [] ∧
      (handleTranscript 1000 0 "world".data true false
          ⟨false, "hello wor".data, [], [], [], none⟩).1.committed =
        appendWithOverlap "hello wor".data (jsTrim "world".data)) :=
  ⟨⟨by decide, by decide,
    (C4_overlap_stitching.1 "hello wor".data "world".data).2.2.2 3
      (by decide) (by decide)⟩,
   ⟨by decide,
    C4_overlap_stitching.2.2 1000 0 "world".data false
      ⟨false, "hello wor".data, [], [], [], none⟩ (by decide)⟩⟩

/-! ### Highlight lifecycle (C8) -/

/-- C8 counterexample: the claim says an apply call's highlight resources are
released after the dwell window *or on the next apply, whichever comes
first*, and that a second apply started inside the first call's dwell window
leaves zero leftover decorations from the first call once the second call
completes.  In fact, after a first apply at `t = 0` and a second at
`t = 1000` (inside the first 3500 ms dwell window), all three decoration
types of the first call are still live when the second call completes, and
the only release scheduled for them is the first call's own timer at 3500 —
there is no release-on-next-apply path in the code. -/
theorem C8_counterexample :
    (applyHighlight 1000 (applyHighlight 0 hlInit)).live.filter
        (fun r => r.1 == 0) = [(0, 0), (0, 1), (0, 2)] ∧
    (applyHighlight 1000 (applyHighlight 0 hlInit)).timers =
      [(0, 3500), (1, 4500)] := by decide

/-- C8 amended: each apply call's three decoration types are released only by
that call's own dispose timer, scheduled exactly `DISPOSE_MS` (3500 ms) after
the call; firing that timer leaves zero of the call's decorations live; and a
subsequent apply neither releases nor disturbs any earlier call's
decorations — they persist until their own timer fires, so nothing leaks past
its own dwell window but nothing is released early either. -/
theorem C8_dispose_own_timer :
    ∀ (s : HLState) (t id : Nat),
      (applyHighlight t s).timers = s.timers ++ [(s.nextId, t + DISPOSE_MS)] ∧
      (fireDispose id s).live.filter (fun r => r.1 == id) = [] ∧
      ((applyHighlight t s).live.filter (fun r => r.1 == id) =
          s.live.filter (fun r => r.1 == id) ∨ id = s.nextId) := by
  intro s t id
  refine ⟨rfl, ?_, ?_⟩
  · rw [List.filter_eq_nil_iff]
    intro a ha
    have h2 := (List.mem_filter.mp ha).2
    simp only [Bool.not_eq_true'] at h2
    simp [h2]
  · by_cases h : id = s.nextId
    · exact Or.inr h
    · have h' : (s.nextId == id) = false := by
        simp [beq_iff_eq]; exact fun hh => h hh.symm
      left
      simp [applyHighlight, List.filter_append, h']

/-! ### Reconciler lemmas (C1, C5, C6) -/

/-- Every `Transcript` event whose trimmed text is non-empty re-arms the
single idle timer to fire `idleDelay T` after the event, on every path
through the handler (`resetIdle` runs before the `speech_final` check and is
not undone by resolution). -/
theorem handleTranscript_deadline (T t : Nat) (raw : JStr) (f sf : Bool)
    (s : MState) (h : jsTrim raw ≠ []) :
    (handleTranscript T t raw f sf s).1.idleDeadline =
      some (t + idleDelay T) := by
  cases sf
  · cases f <;> simp [handleTranscript, h]
  · cases f <;> by_cases hs : s.settled = true <;>
      simp [handleTranscript, h, safeResolve, hs]

theorem resCount_append (a b : List Out) :
    resCount (a ++ b) = resCount a + resCount b := by
  simp [resCount]

/-- One step emits at most one terminal output; a step whose result is
unsettled emitted none; and from a settled state every step stays settled and
emits none. -/
theorem step_res (T : Nat) (s : MState) (e : Ev) :
    resCount (step T s e).2 ≤ 1 ∧
    ((step T s e).1.settled = false → resCount (step T s e).2 = 0) ∧
    (s.settled = true → (step T s e).1.settled = true ∧
      resCount (step T s e).2 = 0) := by
  cases e with
  | transcript t txt f sf =>
    by_cases h : jsTrim txt = []
    · simp [step, handleTranscript, h, resCount]
    · cases sf
      · cases f <;> by_cases hs : s.settled = true <;>
          simp [step, handleTranscript, h, resCount, hs]
      · cases f <;> by_cases hs : s.settled = true <;>
          simp [step, handleTranscript, h, safeResolve, resCount, hs]
  | close t =>
    by_cases hs : s.settled = true <;>
      simp [step, handleClose, safeResolve, resCount, hs]
  | error t =>
    by_cases hs : s.settled = true <;>
      simp [step, handleError, safeReject, resCount, hs]
  | timerFire t =>
    by_cases hs : s.settled = true
    · simp [step, handleTimer, resCount, hs]
    · by_cases hu : jsTrim s.utterance = [] <;>
        simp [step, handleTimer, safeResolve, resCount, hs, hu]

theorem runTrace_res_aux (T : Nat) :
    ∀ (es : List Ev) (s : MState) (outs : List Out),
      resCount outs ≤ 1 → (s.settled = false → resCount outs = 0) →
      resCount (es.foldl (fun acc e =>
          let r := step T acc.1 e
          (r.1, acc.2 ++ r.2)) (s, outs)).2 ≤ 1 ∧
      ((es.foldl (fun acc e =>
          let r := step T acc.1 e
          (r.1, acc.2 ++ r.2)) (s, outs)).1.settled = false →
        resCount (es.foldl (fun acc e =>
          let r := step T acc.1 e
          (r.1, acc.2 ++ r.2)) (s, outs)).2 = 0) := by
  intro es
  induction es with
  | nil => intro s outs h1 h2; exact ⟨h1, h2⟩
  | cons e es ih =>
    intro s outs h1 h2
    simp only [List.foldl_cons]
    obtain ⟨r1, r2, r3⟩ := step_res T s e
    by_cases hs : s.settled = true
    · refine ih _ _ ?_ ?_
      · rw [resCount_append, (r3 hs).2]
        simpa using h1
      · intro hf
        have := (r3 hs).1
        rw [hf] at this
        exact absurd this (by simp)
    · have h0 : resCount outs = 0 := h2 (by simpa using hs)
      refine ih _ _ ?_ ?_
      · rw [resCount_append, h0]
        simpa using r1
      · intro hf
        rw [resCount_append, h0, r2 hf]

/-- C1 counterexample: the claim says any transcription event arriving after
settlement is a no-op that mutates nothing, never invokes `onInterim`, and
cancels any pending idle timer.  In fact the `Transcript` handler performs no
`settled` check: after the first event settles the session (speech-final,
resolving `"hello"`), a second interim event still rewrites the preview to
`"hello world"`, still emits an `onInterim` call, and re-arms (rather than
cancels) the idle timer to `10 + 1200 = 1210`. -/
theorem C1_counterexample :
    runTrace 1000
      [Ev.transcript 0 "hello".data true true,
       Ev.transcript 10 "world".data false false] =
    (⟨true, "hello".data, "world".data, "hello world".data, "hello".data,
       some 1210⟩,
     [Out.resolve "hello".data, Out.interim "hello world".data]) := by decide

/-- C1 amended: resolution is exactly-once — across any event trace at most
one terminal output (resolution or rejection) is ever produced, because
`safeResolve`/`safeReject` and the idle-timer callback are guarded by
`settled`; and from a settled state every event leaves the session settled
and produces no further terminal output.  The `Transcript` handler itself,
however, is not guarded: a post-settlement event may still mutate
`committed`/`preview`, re-arm the idle timer and invoke `onInterim`. -/
theorem C1_resolution_once :
    ∀ T : Nat,
      (∀ es : List Ev, resCount (runTrace T es).2 ≤ 1) ∧
      (∀ (s : MState) (e : Ev), s.settled = true →
        (step T s e).1.settled = true ∧ resCount (step T s e).2 = 0) := by
  intro T
  constructor
  · intro es
    have h := runTrace_res_aux T es initState []
      (by simp [resCount]) (fun _ => by simp [resCount])
    exact h.1
  · intro s e hs
    exact (step_res T s e).2.2 hs

/-- Witness for C1's amended theorem: the exactly-once bound on a concrete
trace that settles early, and the settled-state clauses at a concrete settled
state and late event. -/
theorem C1_witness :
    resCount (runTrace 1000 [Ev.transcript 0 "hello".data true true,
        Ev.transcript 10 "world".data false false]).2 ≤ 1 ∧
    (step 1000
        (⟨true, "hello".data, [], "hello".data, "hello".data, some 1200⟩ :
          MState)
        (Ev.transcript 10 "world".data false false)).1.settled = true ∧
    resCount (step 1000
        (⟨true, "hello".data, [], "hello".data, "hello".data, some 1200⟩ :
          MState)
        (Ev.transcript 10 "world".data false false)).2 = 0 :=
  ⟨(C1_resolution_once 1000).1 _,
   ((C1_resolution_once 1000).2 _ _ rfl).1,
   ((C1_resolution_once 1000).2 _ _ rfl).2⟩

/-- `finalTranscript` is only ever written immediately before a (possibly
redundant) resolution attempt, so an unsettled session still has the initial
empty `finalTranscript` after any step. -/
theorem step_finalTranscript (T : Nat) (s : MState) (e : Ev)
    (h : s.settled = false → s.finalTranscript = []) :
    (step T s e).1.settled = false →
      (step T s e).1.finalTranscript = [] := by
  cases e with
  | transcript t txt f sf =>
    by_cases ht : jsTrim txt = []
    · simpa [step, handleTranscript, ht] using h
    · cases sf
      · cases f
        all_goals
          intro hf
          have hsf : s.settled = false := by
            simpa [step, handleTranscript, ht] using hf
          simpa [step, handleTranscript, ht] using h hsf
      · cases f <;> by_cases hs : s.settled = true <;>
          simp [step, handleTranscript, ht, safeResolve, hs]
  | close t =>
    by_cases hs : s.settled = true
    · simp [step, handleClose, hs]
    · simp [step, handleClose, safeResolve, hs]
  | error t =>
    by_cases hs : s.settled = true
    · simp [step, handleError, safeReject, hs]
    · simp [step, handleError, safeReject, hs]
  | timerFire t =>
    by_cases hs : s.settled = true
    · simp [step, handleTimer, hs]
    · by_cases hu : jsTrim s.utterance = []
      · simpa [step, handleTimer, hs, hu] using h
      · simp [step, handleTimer, safeResolve, hs, hu]

theorem runTrace_ft_aux (T : Nat) :
    ∀ (es : List Ev) (s : MState) (outs : List Out),
      (s.settled = false → s.finalTranscript = []) →
      ((es.foldl (fun acc e =>
          let r := step T acc.1 e
          (r.1, acc.2 ++ r.2)) (s, outs)).1.settled = false →
        (es.foldl (fun acc e =>
          let r := step T acc.1 e
          (r.1, acc.2 ++ r.2)) (s, outs)).1.finalTranscript = []) := by
  intro es
  induction es with
  | nil => intro s outs h; exact h
  | cons e es ih =>
    intro s outs h
    simp only [List.foldl_cons]
    exact ih _ _ (step_finalTranscript T s e h)

/-- C5 counterexample: the claim says a pre-resolution channel close resolves
with the text committed so far.  In fact `Close` resolves with
`finalTranscript`, which is still empty: after a final (but not speech-final)
event commits `"hello"`, a close resolves with `""`, discarding the committed
text. -/
theorem C5_counterexample :
    runTrace 1000 [Ev.transcript 0 "hello".data true false, Ev.close 50] =
    (⟨true, "hello".data, [], "hello".data, [], some 1200⟩,
     [Out.interim "hello".data, Out.resolve []]) := by decide

/-- C5 amended: if the provider channel closes before the session has
resolved, the session resolves successfully (it never rejects on this path)
with `finalTranscript` — which at any unsettled point of any trace is
necessarily the empty string, since `finalTranscript` is only assigned
together with settling.  So a pre-resolution close always resolves with the
empty string, not with the committed text. -/
theorem C5_close_resolves_empty :
    ∀ (T : Nat) (es : List Ev),
      (runTrace T es).1.settled = false →
      handleClose (runTrace T es).1 =
        ({ (runTrace T es).1 with settled := true }, [Out.resolve []]) := by
  intro T es h
  have hft : (runTrace T es).1.finalTranscript = [] := by
    have := runTrace_ft_aux T es initState [] (fun _ => rfl)
    exact this h
  simp [handleClose, h, safeResolve, hft]

/-- Witness for C5's amended theorem at a concrete trace with one committed
segment and no resolution. -/
theorem C5_witness :
    (runTrace 1000 [Ev.transcript 0 "hello".data true false]).1.settled =
      false ∧
    handleClose (runTrace 1000 [Ev.transcript 0 "hello".data true false]).1 =
      ({ (runTrace 1000 [Ev.transcript 0 "hello".data true false]).1 with
          settled := true }, [Out.resolve []]) :=
  ⟨by decide, C5_close_resolves_empty 1000 _ (by decide)⟩

/-- In a valid trace that ends with a non-empty-text `Transcript` event at
`t₀` followed only by an idle-timer firing at `t`, the firing cannot happen
before `t₀ + idleDelay T`: the event re-armed the timer to exactly that
deadline and `setTimeout` never fires early. -/
theorem validFrom_timer_lb (T : Nat) :
    ∀ (es : List Ev) (s : MState) (now t₀ t : Nat) (raw : JStr) (f sf : Bool),
      jsTrim raw ≠ [] →
      validFrom T s now
        (es ++ [Ev.transcript t₀ raw f sf, Ev.timerFire t]) = true →
      t₀ + idleDelay T ≤ t := by
  intro es
  induction es with
  | nil =>
    intro s now t₀ t raw f sf hraw hv
    have hd := handleTranscript_deadline T t₀ raw f sf s hraw
    simp only [List.nil_append, validFrom, evTime, step, Bool.and_true,
      Bool.and_eq_true, decide_eq_true_eq] at hv
    rw [hd] at hv
    simpa using hv.2.2
  | cons e es ih =>
    intro s now t₀ t raw f sf hraw hv
    simp only [List.cons_append, validFrom, Bool.and_eq_true] at hv
    exact ih _ _ _ _ _ _ _ hraw hv.2

/-- C6: every transcription event with non-empty (trimmed) text restarts the
single idle timer to `max(1200, T + 200)` ms, where `T` is the configured
trailing-silence duration (the source's `Math.max(100, …)` clamp does not
change this value); if the armed timer fires while the session is unresolved
and the trimmed preview is non-empty, the session resolves with
`preview.trim()`; and in any valid trace whose last events are a non-empty
transcription event at `t₀` followed only by the timer firing at `t`, the
firing — hence any idle resolution — happens no earlier than
`t₀ + max(1200, T + 200)`. -/
theorem C6_idle_timer :
    (∀ (T t : Nat) (raw : JStr) (f sf : Bool) (s : MState),
        jsTrim raw ≠ [] →
        (handleTranscript T t raw f sf s).1.idleDeadline =
          some (t + idleDelay T)) ∧
    (∀ T : Nat, idleDelay (clampTrailing T) = max 1200 (T + 200)) ∧
    (∀ s : MState, s.settled = false → jsTrim s.utterance ≠ [] →
        handleTimer s =
          ({ s with idleDeadline := none,
                    finalTranscript := jsTrim s.utterance, settled := true },
           [Out.resolve (jsTrim s.utterance)])) ∧
    (∀ (T : Nat) (es : List Ev) (t₀ t : Nat) (raw : JStr) (f sf : Bool),
        jsTrim raw ≠ [] →
        validTrace T
          (es ++ [Ev.transcript t₀ raw f sf, Ev.timerFire t]) = true →
        t₀ + idleDelay T ≤ t) := by
  refine ⟨fun T t raw f sf s => handleTranscript_deadline T t raw f sf s, ?_, ?_, ?_⟩
  · intro T
    simp only [idleDelay, clampTrailing]
    omega
  · intro s hs hu
    simp [handleTimer, hs, hu, safeResolve]
  · intro T es t₀ t raw f sf hraw hv
    exact validFrom_timer_lb T es initState 0 t₀ t raw f sf hraw hv

/-- Witness for C6 at concrete values: `T = 1000` gives delay 1200; a lone
interim `"hello"` event at time 0 followed by a firing at 1300 is a valid
trace, and the theorem yields `0 + 1200 ≤ 1300`; the timer clause applied to
the state just before the firing yields the concrete resolution with the
trimmed preview. -/
theorem C6_witness :
    (jsTrim "hello".data ≠ [] ∧
      (handleTranscript 1000 0 "hello".data false false initState).1.idleDeadline =
        some (0 + idleDelay 1000)) ∧
    idleDelay (clampTrailing 1000) = max 1200 (1000 + 200) ∧
    handleTimer
        (⟨false, [], "hello".data, "hello".data, [], some 1200⟩ : MState) =
      ({ (⟨false, [], "hello".data, "hello".data, [], some 1200⟩ : MState) with
          idleDeadline := none, finalTranscript := jsTrim "hello".data,
          settled := true },
       [Out.resolve (jsTrim "hello".data)]) ∧
    (validTrace 1000
        ([] ++ [Ev.transcript 0 "hello".data false false,
                Ev.timerFire 1300]) = true ∧
      0 + idleDelay 1000 ≤ 1300) :=
  ⟨⟨by decide,
    C6_idle_timer.1 1000 0 "hello".data false false initState (by decide)⟩,
   C6_idle_timer.2.1 1000,
   C6_idle_timer.2.2.1 _ rfl (by decide),
   ⟨by decide,
    C6_idle_timer.2.2.2 1000 [] 0 1300 "hello".data false false (by decide)
      (by decide)⟩⟩

/-! ### Added-span structure (C3) -/

/-- Well-formed, ordered, disjoint spans: each span has `start ≤ end` and
each span ends strictly before the next one starts. -/
def spansOrderedB : List (Nat × Nat) → Bool
  | [] => true
  | [p] => decide (p.1 ≤ p.2)
  | p :: q :: rest =>
    decide (p.1 ≤ p.2) && decide (p.2 < q.1) && spansOrderedB (q :: rest)

theorem spansOrderedB_head_le (p : Nat × Nat) (rest : List (Nat × Nat))
    (h : spansOrderedB (p :: rest) = true) : p.1 ≤ p.2 := by
  cases rest with
  | nil => simpa [spansOrderedB] using h
  | cons q rest' =>
    simp only [spansOrderedB, Bool.and_eq_true, decide_eq_true_eq] at h
    exact h.1.1

theorem spansOrderedB_tail (p : Nat × Nat) (rest : List (Nat × Nat))
    (h : spansOrderedB (p :: rest) = true) : spansOrderedB rest = true := by
  cases rest with
  | nil => rfl
  | cons q rest' =>
    simp only [spansOrderedB, Bool.and_eq_true] at h
    exact h.2

/-- In an ordered span list, every span after the head starts strictly after
the head ends. -/
theorem spansOrderedB_all_gt :
    ∀ (rest : List (Nat × Nat)) (p : Nat × Nat),
      spansOrderedB (p :: rest) = true → ∀ q ∈ rest, p.2 < q.1 := by
  intro rest
  induction rest with
  | nil => intro p _ q hq; cases hq
  | cons r rest' ih =>
    intro p h q hq
    simp only [spansOrderedB, Bool.and_eq_true, decide_eq_true_eq] at h
    rcases List.mem_cons.mp hq with rfl | hq'
    · exact h.1.2
    · have hr := ih r h.2 q hq'
      have hr1 : r.1 ≤ r.2 := spansOrderedB_head_le r rest' h.2
      omega

/-- Ordered disjoint spans cover each line at most once. -/
theorem spansOrderedB_countP :
    ∀ l : List (Nat × Nat), spansOrderedB l = true → ∀ k : Nat,
      l.countP (fun p => decide (p.1 ≤ k) && decide (k ≤ p.2)) ≤ 1 := by
  intro l
  induction l with
  | nil => intro _ k; simp
  | cons p rest ih =>
    intro h k
    rw [List.countP_cons]
    by_cases hp : (decide (p.1 ≤ k) && decide (k ≤ p.2)) = true
    · have hk : k ≤ p.2 := by
        simp only [Bool.and_eq_true, decide_eq_true_eq] at hp
        exact hp.2
      have hz : rest.countP (fun p => decide (p.1 ≤ k) && decide (k ≤ p.2)) = 0 := by
        rw [List.countP_eq_zero]
        intro q hq
        have hgt := spansOrderedB_all_gt rest p h q hq
        simp only [Bool.and_eq_true, decide_eq_true_eq, not_and]
        omega
      simp [hz, hp]
    · have ht := ih (spansOrderedB_tail p rest h) k
      simpa [hp] using ht

/-- Appending a span that starts after every existing span ends keeps the
list ordered. -/
theorem spansOrderedB_append :
    ∀ (l : List (Nat × Nat)) (s e : Nat),
      spansOrderedB l = true → (∀ p ∈ l, p.2 < s) → s ≤ e →
      spansOrderedB (l ++ [(s, e)]) = true := by
  intro l
  induction l with
  | nil => intro s e _ _ hse; simpa [spansOrderedB] using hse
  | cons p rest ih =>
    intro s e hord hlt hse
    cases rest with
    | nil =>
      have h1 : p.1 ≤ p.2 := spansOrderedB_head_le p [] hord
      have h2 : p.2 < s := hlt p (by simp)
      simpa [spansOrderedB, h1, h2] using hse
    | cons q rest' =>
      simp only [spansOrderedB, Bool.and_eq_true, decide_eq_true_eq] at hord
      have htl := ih s e hord.2 (fun r hr => hlt r (List.mem_cons_of_mem p hr))
        hse
      simp only [List.cons_append, spansOrderedB, Bool.and_eq_true,
        decide_eq_true_eq]
      exact ⟨hord.1, by simpa using htl⟩

/-- Invariant of the LCS walk relating the new-text cursor, the open added
run and the accumulated added spans: the spans are ordered and all end before
the open run starts (or before the cursor if no run is open), and the run, if
open, started before the cursor. -/
def AddInv (j : Nat) (aS : Option Nat) (ad : List (Nat × Nat)) : Prop :=
  spansOrderedB ad = true ∧
  (match aS with
   | none => ∀ p ∈ ad, p.2 < j
   | some s => (∀ p ∈ ad, p.2 < s) ∧ s < j)

theorem AddInv_mono {j j' : Nat} {aS : Option Nat} {ad : List (Nat × Nat)}
    (h : AddInv j aS ad) (hle : j ≤ j') : AddInv j' aS ad := by
  obtain ⟨h1, h2⟩ := h
  refine ⟨h1, ?_⟩
  cases aS with
  | none => exact fun p hp => Nat.lt_of_lt_of_le (h2 p hp) hle
  | some s => exact ⟨h2.1, Nat.lt_of_lt_of_le h2.2 hle⟩

/-- The walk preserves `AddInv` (with the final cursor bounded by the current
cursor plus the remaining new lines) and produces only removed entries with
positive count. -/
theorem walkLoop_inv :
    ∀ (fuel : Nat) (As Bs : List JStr) (j : Nat) (aS : Option Nat) (dC : Nat)
      (ad rm : List (Nat × Nat)),
      AddInv j aS ad → (∀ q ∈ rm, 1 ≤ q.2) →
      AddInv (j + Bs.length) (walkLoop fuel As Bs j aS dC ad rm).2.2.1
          (walkLoop fuel As Bs j aS dC ad rm).1 ∧
      ∀ q ∈ (walkLoop fuel As Bs j aS dC ad rm).2.1, 1 ≤ q.2 := by
  intro fuel
  induction fuel with
  | zero =>
    intro As Bs j aS dC ad rm h1 h2
    simp only [walkLoop]
    exact ⟨AddInv_mono h1 (Nat.le_add_right _ _), h2⟩
  | succ n ih =>
    intro As Bs j aS dC ad rm h1 h2
    cases As with
    | nil =>
      simp only [walkLoop]
      exact ⟨AddInv_mono h1 (Nat.le_add_right _ _), h2⟩
    | cons a As' =>
      cases Bs with
      | nil =>
        simp only [walkLoop]
        exact ⟨AddInv_mono h1 (Nat.le_add_right _ _), h2⟩
      | cons b Bs' =>
        simp only [walkLoop, List.length_cons]
        by_cases hab : a = b
        · rw [if_pos hab]
          have hrm : ∀ q ∈ (if dC = 0 then rm else rm ++ [(j, dC)]),
              1 ≤ q.2 := by
            by_cases hdc : dC = 0
            · simpa [hdc] using h2
            · simp only [if_neg hdc]
              intro q hq
              rcases List.mem_append.mp hq with hq' | hq'
              · exact h2 q hq'
              · have hqe : q = (j, dC) := by simpa using hq'
                rw [hqe]
                show 1 ≤ dC
                omega
          cases aS with
          | none =>
            have hstep : AddInv (j + 1) none ad :=
              ⟨h1.1, fun p hp => Nat.lt_succ_of_lt (h1.2 p hp)⟩
            have hres := ih As' Bs' (j + 1) none 0 ad _ hstep hrm
            have hb : j + 1 + Bs'.length = j + (Bs'.length + 1) := by omega
            rw [hb] at hres
            exact hres
          | some s =>
            obtain ⟨hord, hlt, hsj⟩ := h1
            have hstep : AddInv (j + 1) none (ad ++ [(s, j - 1)]) := by
              refine ⟨spansOrderedB_append ad s (j - 1) hord hlt (by omega),
                ?_⟩
              intro p hp
              rcases List.mem_append.mp hp with hp' | hp'
              · have := hlt p hp'; omega
              · have hpe : p = (s, j - 1) := by simpa using hp'
                rw [hpe]
                show j - 1 < j + 1
                omega
            have hres := ih As' Bs' (j + 1) none 0 (ad ++ [(s, j - 1)]) _
              hstep hrm
            have hb : j + 1 + Bs'.length = j + (Bs'.length + 1) := by omega
            rw [hb] at hres
            exact hres
        · rw [if_neg hab]
          by_cases hge : dpLCS As' (b :: Bs') ≥ dpLCS (a :: As') Bs'
          · rw [if_pos hge]
            have hres := ih As' (b :: Bs') j aS (dC + 1) ad rm h1 h2
            simpa using hres
          · rw [if_neg hge]
            cases aS with
            | none =>
              have hstep : AddInv (j + 1) (some j) ad :=
                ⟨h1.1, h1.2, Nat.lt_succ_self j⟩
              have hres := ih (a :: As') Bs' (j + 1) (some j) dC ad rm hstep h2
              have hb : j + 1 + Bs'.length = j + (Bs'.length + 1) := by omega
              rw [hb] at hres
              exact hres
            | some s =>
              obtain ⟨hord, hlt, hsj⟩ := h1
              have hstep : AddInv (j + 1) (some s) ad :=
                ⟨hord, hlt, Nat.lt_succ_of_lt hsj⟩
              have hres := ih (a :: As') Bs' (j + 1) (some s) dC ad rm hstep h2
              have hb : j + 1 + Bs'.length = j + (Bs'.length + 1) := by omega
              rw [hb] at hres
              exact hres

/-- The added spans of any diff are ordered and disjoint, and every removed
entry has positive count. -/
theorem computeChangeHints_spans (oldText newText : JStr) :
    spansOrderedB (computeChangeHints oldText newText).added = true ∧
    ∀ q ∈ (computeChangeHints oldText newText).removed, 1 ≤ q.2 := by
  have hinv := walkLoop_inv
    ((splitLines oldText).length + (splitLines newText).length)
    (splitLines oldText) (splitLines newText) 0 none 0 [] []
    ⟨rfl, fun p hp => by cases hp⟩ (fun q hq => by cases hq)
  obtain ⟨hAdd, hRm⟩ := hinv
  rw [Nat.zero_add] at hAdd
  simp only [computeChangeHints]
  split
  · refine ⟨by simp [spansOrderedB], ?_⟩
    intro q hq
    simp at hq
  · split
    · refine ⟨rfl, ?_⟩
      intro q hq
      simp at hq
    · split
      · dsimp only
        constructor
        · obtain ⟨hord, hrest⟩ := hAdd
          split
          · rename_i s heq
            rw [heq] at hrest
            refine spansOrderedB_append _ s _ hord hrest.1 ?_
            have := hrest.2
            omega
          · exact hord
        · split
          · rename_i hdc
            intro q hq
            rcases List.mem_append.mp hq with hq' | hq'
            · exact hRm q hq'
            · have hqe := List.mem_singleton.mp hq'
              rw [hqe]
              simpa using Nat.one_le_iff_ne_zero.mpr hdc
          · exact hRm
      · refine ⟨rfl, ?_⟩
        intro q hq
        simp at hq

/-- C3 counterexample: the claim says every maximal deleted run of old-text
lines produces exactly one removed entry (and every new-text line is
accounted for).  On `("x\ny", "x")` the old line `"y"` is deleted — it does
not occur in the new text — yet the diff is completely empty: the walk
matches `"x"`, exhausts the new side and exits, silently dropping the
trailing old line, so the deleted run produces no removed entry at all. -/
theorem C3_counterexample :
    computeChangeHints ("x\ny").data "x".data = ⟨[], [], []⟩ ∧
    splitLines ("x\ny").data = ["x".data, "y".data] ∧
    splitLines "x".data = ["x".data] ∧
    "y".data ∉ splitLines "x".data := by decide

/-- C3 amended: the added spans are always well-formed, disjoint and ordered,
so every line of the new text is covered by *at most* one added span, and
every removed entry carries a positive count; but a line of the new text need
not be accounted for at all, and a trailing deleted run of old lines can
produce no removed entry: when the LCS walk exhausts one side it drops
whatever remains on the other side (unless an added run or deletion count is
already open, which the post-loop flush closes). -/
theorem C3_spans_invariant :
    ∀ oldText newText : JStr,
      spansOrderedB (computeChangeHints oldText newText).added = true ∧
      (∀ k : Nat, ((computeChangeHints oldText newText).added.countP
          (fun p => decide (p.1 ≤ k) && decide (k ≤ p.2))) ≤ 1) ∧
      ((computeChangeHints oldText newText).removed.all
          (fun q => decide (1 ≤ q.2))) = true := by
  intro o n
  obtain ⟨h1, h2⟩ := computeChangeHints_spans o n
  refine ⟨h1, fun k => spansOrderedB_countP _ h1 k, ?_⟩
  rw [List.all_eq_true]
  intro q hq
  simpa using h2 q hq

end Mantra
